import Mathlib

/-!
Verification development for the DeepSearch content-generation client and
workflow core.

The repository ships the React/TypeScript frontend (src/frontend and the
unnamed source parts).  The client in src/unnamed/part_001 keeps the chat
state (messages, loading flag, progress display, activity logs, typing
queue), issues one POST per send to the streaming endpoint, parses the SSE
byte stream line by line, and dispatches the parsed events to a switch that
updates the state.  We embed that code in three layers:

* a typed client layer: the ClientState record and the switch of
  handleSendMessage acting on already-parsed events, plus the typewriter
  effect that drains the typing queue;
* a parse layer: the buffer/split/trim loop of handleSendMessage acting on
  character chunks, producing the raw (event name, event data) pairs that
  reach the JSON-parse/switch stage;
* the markdown link renderer of src/unnamed/part_003.

The backend workflow core (citation assembler, scoped retrieval) is not in
the repository sources, only the specification describes it; those parts are
modelled from the spec and marked as such on their definitions.
-/

namespace DeepSearch

/-- Sender of a chat message, field sender of interface Message. -/
inductive Sender
  | user
  | ai
deriving DecidableEq

/-- One chat message as in interface Message of src/unnamed/part_001:
id, sender, content, and an optional sources array (the field is absent,
modelled as none, on user messages; the fresh AI message carries some []).
The id strings stand for the uuids produced by uuidv4(). -/
structure Message where
  id : String
  sender : Sender
  content : String
  sources : Option (List String)
deriving DecidableEq

/-- The two admissible values of the type field of a progress event,
interface ProgressInfo of src/unnamed/part_001. -/
inductive ProgressKind
  | research
  | writing
deriving DecidableEq

/-- Payload of a progress event, interface ProgressInfo of
src/unnamed/part_001.  JS numbers carrying task counters are modelled as
integers. -/
structure ProgressInfo where
  ptype : ProgressKind
  current : Int
  total : Int
  description : String
deriving DecidableEq

/-- One activity-log entry, interface ActivityLog of src/unnamed/part_001.
The uuid id and the wall-clock timestamp are environment-supplied values
with no logical content; the model keeps the message text. -/
structure ActivityLog where
  message : String
deriving DecidableEq

/-- Discriminant of a typing-queue item, field type of interface
TypingQueueItem in src/unnamed/part_001. -/
inductive QItemKind
  | chapter
  | references
deriving DecidableEq

/-- One item of the typewriter queue, interface TypingQueueItem of
src/unnamed/part_001: type, content, optional title. -/
structure TypingQueueItem where
  kind : QItemKind
  content : String
  title : Option String
deriving DecidableEq

/-- The client state of the App component in src/unnamed/part_001: the
useState hooks messages, isLoading, sessionId, progress, activityLogs,
currentAiMessageId and typingQueue. -/
structure ClientState where
  messages : List Message
  isLoading : Bool
  sessionId : Option String
  progress : Option ProgressInfo
  activityLogs : List ActivityLog
  currentAiMessageId : Option String
  typingQueue : List TypingQueueItem
deriving DecidableEq

/-- A parsed server-sent event, one constructor per case of the switch in
handleSendMessage of src/unnamed/part_001.  The chapter title is optional
because jsonData.title may be absent. -/
inductive SEvent
  | progress (p : ProgressInfo)
  | chapter (title : Option String) (content : String)
  | references (content : String)
  | sources (srcs : List String)
  | error (msg : String)
deriving DecidableEq

/-- JSON body of the send request in handleSendMessage of
src/unnamed/part_001: exactly the two fields message and session_id. -/
structure ChatRequest where
  message : String
  session_id : String
deriving DecidableEq

/-- One HTTP request issued by the client, with the fetch url, the method
and the JSON body. -/
structure HttpPost where
  url : String
  method : String
  body : ChatRequest
deriving DecidableEq

/-- The streaming endpoint url used by the fetch call of
src/unnamed/part_001. -/
def streamUrl : String := "http://localhost:8000/api/v1/chat/stream"

/-- Activity-log text built for a progress event in handleSendMessage of
src/unnamed/part_001 (template string on the progress case). -/
def progressMessage (p : ProgressInfo) : String :=
  (if p.ptype = ProgressKind.research then "研究中" else "写作中")
    ++ " (" ++ toString p.current ++ "/" ++ toString p.total ++ "): "
    ++ p.description

/-- Text rendered by the ProgressDisplay component of
src/frontend/src/features/chat/ChatMessagesView.tsx (progressType and
progressText). -/
def progressDisplayText (p : ProgressInfo) : String :=
  (if p.ptype = ProgressKind.research then "研究中" else "写作中")
    ++ " (" ++ toString p.current ++ "/" ++ toString p.total ++ "): "
    ++ p.description

/-- Content written into the AI message on an error event in
handleSendMessage of src/unnamed/part_001. -/
def backendErrorText (e : String) : String := "后端错误: " ++ e

/-- The typing-queue item enqueued for an event, if any: the chapter and
references cases of the switch push one item, the other cases push
nothing. -/
def queueItemOf : SEvent → Option TypingQueueItem
  | SEvent.chapter t c => some ⟨QItemKind.chapter, c, t⟩
  | SEvent.references c => some ⟨QItemKind.references, c, none⟩
  | _ => none

/-- The switch of handleSendMessage in src/unnamed/part_001 acting on one
parsed event.  The aid argument is the newAiMessageId captured by the
closure of the current run. -/
def handleParsedEvent (aid : String) (st : ClientState) : SEvent → ClientState
  | SEvent.progress p =>
      { st with
        progress := some p,
        activityLogs := ⟨progressMessage p⟩ :: st.activityLogs }
  | SEvent.chapter t c =>
      { st with typingQueue := st.typingQueue ++ [⟨QItemKind.chapter, c, t⟩] }
  | SEvent.references c =>
      { st with typingQueue := st.typingQueue ++ [⟨QItemKind.references, c, none⟩] }
  | SEvent.sources s =>
      { st with
        messages := st.messages.map fun m =>
          if m.id = aid then { m with sources := some s } else m }
  | SEvent.error e =>
      { st with
        messages := st.messages.map fun m =>
          if m.id = aid then { m with content := backendErrorText e } else m,
        isLoading := false,
        progress := none }

/-- Folding the switch over a list of parsed events in arrival order. -/
def runEvents (aid : String) (st : ClientState) (es : List SEvent) : ClientState :=
  es.foldl (handleParsedEvent aid) st

/-- Full text typed for one queue item by the typewriter useEffect of
src/unnamed/part_001: a chapter item with a truthy (nonempty) title is
rendered with a heading, everything else is typed verbatim. -/
def fullContentOf (it : TypingQueueItem) : String :=
  match it.title with
  | some t =>
      if it.kind = QItemKind.chapter ∧ t ≠ "" then
        "\n\n## " ++ t ++ "\n\n" ++ it.content
      else it.content
  | none => it.content

/-- Map that appends a text to the content of the message whose id equals
the current AI message id (the setMessages update of the typeChar loop). -/
def appendToAi (cid : Option String) (txt : String) (msgs : List Message) : List Message :=
  msgs.map fun m =>
    if some m.id = cid then { m with content := m.content ++ txt } else m

/-- Net effect of completing one item of the typing queue: the typeChar
loop of the typewriter useEffect appends fullContentOf of the head item to
the current AI message (in 5-character steps, whose intermediate states we
do not model) and then drops the head from the queue. -/
def typeStep (st : ClientState) : ClientState :=
  match st.typingQueue with
  | [] => st
  | it :: rest =>
      { st with
        typingQueue := rest,
        messages := appendToAi st.currentAiMessageId (fullContentOf it) st.messages }

/-- Repeatedly running the typewriter effect until the given queue copy is
exhausted.  The effect itself only runs when isLoading is false; the order
in which it consumes items does not depend on that gate. -/
def drainFrom (q : List TypingQueueItem) (st : ClientState) : ClientState :=
  match q with
  | [] => st
  | _ :: qs => drainFrom qs (typeStep st)

/-- Concatenation of the typed texts of a queue, in queue order. -/
def renderAll : List TypingQueueItem → String
  | [] => ""
  | it :: q => fullContentOf it ++ renderAll q

/-- The synchronous prologue of handleSendMessage in src/unnamed/part_001,
as the sequence of set-state calls in source order: loading on, progress
and logs and queue cleared, messages replaced by the new user message, the
new AI message id recorded, the fresh empty AI message appended.  uid and
aid stand for the two uuidv4() results. -/
def startRun (st : ClientState) (userMessage uid aid : String) : ClientState :=
  let st1 := { st with isLoading := true }
  let st2 := { st1 with progress := none }
  let st3 := { st2 with activityLogs := [] }
  let st4 := { st3 with typingQueue := [] }
  let st5 := { st4 with messages := [⟨uid, Sender.user, userMessage, none⟩] }
  let st6 := { st5 with currentAiMessageId := some aid }
  { st6 with messages := st6.messages ++ [⟨aid, Sender.ai, "", some []⟩] }

/-- Entry of handleSendMessage in src/unnamed/part_001 up to the fetch
call: with no session id it returns at once issuing no request; otherwise
it performs the prologue and issues the single POST to the streaming
endpoint with body message/session_id.  The streamed response is handled
by the parse layer below. -/
def handleSendMessage (st : ClientState) (userMessage uid aid : String) :
    ClientState × List HttpPost :=
  match st.sessionId with
  | none => (st, [])
  | some sid =>
      (startRun st userMessage uid aid,
       [⟨streamUrl, "POST", ⟨userMessage, sid⟩⟩])

/-! Parse layer: the SSE reading loop of handleSendMessage in
src/unnamed/part_001.  The loop keeps a string buffer, an eventName and an
eventData accumulator across chunks; on each chunk it splits the buffer on
newlines, pops the last (possibly incomplete) line back into the buffer and
walks the complete lines.  Reaching the try/JSON.parse/switch block is
modelled as appending the raw (eventName, eventData) pair to an event list;
the effects of the switch on the typed state are the handleParsedEvent
function above.  Strings are modelled as character lists; the TextDecoder
with stream true makes byte-level chunk boundaries inside a character
equivalent to character-level chunking. -/

/-- Whitespace recognised by the JS trim() calls on event and data lines
(the inputs of interest only contain spaces, tabs, CR and LF). -/
def isJsSpace (c : Char) : Bool :=
  c = ' ' || c = '\t' || c = '\n' || c = '\r' || c = '\x0b' || c = '\x0c'

/-- JS String.prototype.trim on a character list: drop leading and trailing
whitespace. -/
def trimJs (l : List Char) : List Char :=
  ((l.dropWhile isJsSpace).reverse.dropWhile isJsSpace).reverse

/-- State threaded through the line walk of the reading loop: the eventName
and eventData accumulators, the raw pairs that reached the dispatch stage,
and the isLoading/progress flags touched by the [DONE] branch. -/
structure ParseCore where
  eventName : List Char
  eventData : List Char
  events : List (List Char × List Char)
  isLoading : Bool
  progress : Option ProgressInfo
deriving DecidableEq

/-- Processing of one complete line in the for-loop of the reading loop.
The Bool result is true when the line triggered the break of the [DONE]
branch, which abandons the remaining lines of the current chunk. -/
def processLine (c : ParseCore) (l : List Char) : ParseCore × Bool :=
  if "event:".data.isPrefixOf l then
    ({ c with eventName := trimJs (l.drop 6) }, false)
  else if "data:".data.isPrefixOf l then
    ({ c with eventData := c.eventData ++ trimJs (l.drop 5) }, false)
  else if l = [] ∧ c.eventName ≠ [] then
    if c.eventData = "[DONE]".data then
      ({ c with isLoading := false, progress := none }, true)
    else
      ({ c with
          events := c.events ++ [(c.eventName, c.eventData)],
          eventName := [],
          eventData := [] }, false)
  else (c, false)

/-- The for-loop over the complete lines of one chunk, stopping early when
a line triggered the [DONE] break. -/
def processLines (c : ParseCore) : List (List Char) → ParseCore
  | [] => c
  | l :: ls =>
      let r := processLine c l
      if r.2 then r.1 else processLines r.1 ls

/-- True when walking the given lines from the given core never takes the
[DONE] break branch. -/
def noBreak (c : ParseCore) : List (List Char) → Bool
  | [] => true
  | l :: ls =>
      let r := processLine c l
      !r.2 && noBreak r.1 ls

/-- Buffer split of the reading loop: buffer.split of the newline followed
by popping the last element.  Returns the complete lines and the trailing
(newline-free) remainder that is written back into the buffer. -/
def splitBuf : List Char → List (List Char) × List Char
  | [] => ([], [])
  | c :: cs =>
      let p := splitBuf cs
      if c = '\n' then ([] :: p.1, p.2)
      else
        match p.1 with
        | [] => ([], c :: p.2)
        | l :: ls => ((c :: l) :: ls, p.2)

/-- One iteration of the while-loop of the reading loop on a decoded chunk:
append the chunk to the buffer, split off the complete lines, keep the
remainder as the new buffer, and walk the lines. -/
def processChunk (st : List Char × ParseCore) (chunk : List Char) :
    List Char × ParseCore :=
  let p := splitBuf (st.1 ++ chunk)
  (p.2, processLines st.2 p.1)

/-- The whole reading loop over a list of decoded chunks. -/
def processStream (st : List Char × ParseCore) (chunks : List (List Char)) :
    List Char × ParseCore :=
  chunks.foldl processChunk st

/-- Initial reader state of one run: empty buffer and accumulators, loading
already set to true by the prologue. -/
def initParse : List Char × ParseCore :=
  ([], { eventName := [], eventData := [], events := [],
         isLoading := true, progress := none })

/-! Backend workflow core.  The repository sources only contain the
frontend; the citation assembler and the scoped retrieval contract exist
solely in the specification, so the definitions below are modelled from the
spec text (sections 3, 4.4, 4.5 and 8) and are marked as such. -/

/-- Modelled from the spec: SourceRef of section 3, a url/title pair
deduplicated by url. -/
structure SourceRef where
  url : String
  title : String
deriving DecidableEq

/-- Modelled from the spec: a piece of a Draft Section text, either plain
prose or a placeholder citation marker referencing a SourceRef url
(section 3, Draft Section: text_with_markers). -/
inductive TextPiece
  | plain (s : String)
  | marker (url : String)
deriving DecidableEq

/-- Modelled from the spec: Draft Section of section 3, a section id with
its text carrying placeholder markers. -/
structure DraftSection where
  section_id : String
  text_with_markers : List TextPiece
deriving DecidableEq

/-- Marker urls of one draft section in textual order. -/
def markersOf (d : DraftSection) : List String :=
  d.text_with_markers.filterMap fun pc =>
    match pc with
    | TextPiece.marker u => some u
    | TextPiece.plain _ => none

/-- Marker urls of an ordered sequence of draft sections, walked in section
order (the walk of section 4.5). -/
def walkUrls : List DraftSection → List String
  | [] => []
  | d :: ds => markersOf d ++ walkUrls ds

/-- Modelled from the spec: the global source registry of section 3, a
mapping from url to a stable integer citation number in first-seen order;
kept as an association list in assignment order so that insertion order is
significant. -/
abbrev CiteRegistry := List (String × Nat)

/-- Modelled from the spec, section 4.5: if the marker url has not yet been
assigned a citation number, assign the next integer (starting at 1) and
append it to the bibliography list, otherwise leave the registry alone. -/
def addUrl (r : CiteRegistry) (u : String) : CiteRegistry :=
  if r.any (fun p => p.1 = u) then r else r ++ [(u, r.length + 1)]

/-- Modelled from the spec, section 4.5: walk the markers in first
appearance order over the whole draft walk, assigning numbers through
addUrl, starting from the given registry (a single owned table passed
explicitly into the assembler, section 9). -/
def citeReg (r : CiteRegistry) (urls : List String) : CiteRegistry :=
  urls.foldl addUrl r

/-- Citation number assigned to a url by a registry: the number of the
first entry for that url, if any. -/
def lookupUrl (r : CiteRegistry) (u : String) : Option Nat :=
  (r.find? fun p => p.1 = u).map fun p => p.2

/-- Modelled from the spec: Finding of section 3, with the owning task id,
the content text and its sources. -/
structure Finding where
  task_id : String
  content : String
  sources : List SourceRef
deriving DecidableEq

/-- Modelled from the spec: Research Memory of section 3, the findings
appended by the Research Loop, read by the Writing Loop through scoped
queries. -/
abbrev ResearchMemory := List Finding

/-- Modelled from the spec: Section of section 3 (a writing unit), whose
relevant_task_ids set defines the retrieval scope. -/
structure SectionTask where
  id : String
  title : String
  relevant_task_ids : List String
deriving DecidableEq

/-- Modelled from the spec, section 4.4: the Writing Executor for a section
queries Research Memory restricted to relevant_task_ids; this is the exact
list of findings delivered to the executor call. -/
def scopedFindings (mem : ResearchMemory) (s : SectionTask) : List Finding :=
  mem.filter fun f => s.relevant_task_ids.contains f.task_id

/-! Markdown link renderer of src/unnamed/part_003.  The regex scans the
input left to right for non-overlapping matches of a bracketed link text
(one or more non-bracket characters, lazily) followed by a parenthesised
http or https url (one or more characters that are neither whitespace nor
a closing parenthesis, lazily).  Because each lazy class excludes its
terminator, the match at a given position is deterministic, and matchAt
below is its direct transcription. -/

/-- A rendered output part: a plain text segment or an anchor element
carrying the link text and the href url (match groups 1 and 2). -/
inductive RPart
  | text (s : List Char)
  | anchor (txt url : List Char)
deriving DecidableEq

/-- The characters strictly before the first occurrence of the stop
character, and the remainder after it; none when the stop character does
not occur.  With stop the closing bracket this is the lazy one-or-more
non-bracket group followed by its bracket terminator. -/
def splitAtChar (stop : Char) : List Char → Option (List Char × List Char)
  | [] => none
  | c :: cs =>
      if c = stop then some ([], cs)
      else
        match splitAtChar stop cs with
        | some (pre, rest) => some (c :: pre, rest)
        | none => none

/-- The url group and its closing parenthesis: the characters up to the
first closing parenthesis, failing when a whitespace character occurs
first, exactly the behaviour of the lazy class excluding whitespace and
the closing parenthesis followed by the literal parenthesis. -/
def splitAtUrlEnd : List Char → Option (List Char × List Char)
  | [] => none
  | c :: cs =>
      if c = ')' then some ([], cs)
      else if isJsSpace c then none
      else
        match splitAtUrlEnd cs with
        | some (pre, rest) => some (c :: pre, rest)
        | none => none

/-- The scheme part of the url group: the literal http, an optional s, and
the colon-slash-slash.  Returns the consumed scheme and the remainder. -/
def parseScheme : List Char → Option (List Char × List Char)
  | 'h' :: 't' :: 't' :: 'p' :: r =>
      match r with
      | 's' :: ':' :: '/' :: '/' :: r2 => some ("https://".data, r2)
      | ':' :: '/' :: '/' :: r2 => some ("http://".data, r2)
      | _ => none
  | _ => none

/-- The url group after the scheme: the nonempty remainder up to the
closing parenthesis; the resulting url is the scheme followed by that
remainder, with the text after the parenthesis left over. -/
def matchUrl (t0 sch s3 : List Char) : Option (List Char × List Char × List Char) :=
  match splitAtUrlEnd s3 with
  | some (upath, rest) =>
      if upath = [] then none else some (t0, sch ++ upath, rest)
  | none => none

/-- The parenthesised url of the link pattern: the scheme followed by the
url remainder. -/
def matchParen (t0 s2 : List Char) : Option (List Char × List Char × List Char) :=
  match parseScheme s2 with
  | some (sch, s3) => matchUrl t0 sch s3
  | none => none

/-- The part of the link pattern after the link text: the opening
parenthesis then the url. -/
def matchAfterText (t0 r1 : List Char) : Option (List Char × List Char × List Char) :=
  match r1 with
  | '(' :: s2 => matchParen t0 s2
  | _ => none

/-- The part of the link pattern after the opening bracket: the nonempty
link text up to the closing bracket, then the parenthesised url. -/
def matchBody (s1 : List Char) : Option (List Char × List Char × List Char) :=
  match splitAtChar ']' s1 with
  | some (t, r1) => if t = [] then none else matchAfterText t r1
  | none => none

/-- Attempt to match the link pattern at the head of the input.  On success
returns the link text, the full url (group 2, scheme included) and the
remainder after the closing parenthesis. -/
def matchAt : List Char → Option (List Char × List Char × List Char)
  | [] => none
  | c :: s1 => if c = '[' then matchBody s1 else none

/-- Leftmost match of the pattern in the input, as regex exec finds it:
the text before the match, the link text, the url and the remainder. -/
def findMatch : List Char → Option (List Char × List Char × List Char × List Char)
  | [] => none
  | c :: cs =>
      match matchAt (c :: cs) with
      | some (t, u, rest) => some ([], t, u, rest)
      | none =>
          match findMatch cs with
          | some (p, t, u, rest) => some (c :: p, t, u, rest)
          | none => none

/-- The while-loop of renderMarkdownWithLinks, with a fuel argument (the
input length suffices) standing in for the lastIndex progression: push the
text before the match when nonempty, push the anchor, continue after the
match; at the end push the trailing text when nonempty. -/
def renderFuel : Nat → List Char → List RPart
  | 0, s => if s = [] then [] else [RPart.text s]
  | Nat.succ f, s =>
      match findMatch s with
      | none => if s = [] then [] else [RPart.text s]
      | some (p, t, u, rest) =>
          (if p = [] then [] else [RPart.text p])
            ++ RPart.anchor t u :: renderFuel f rest

/-- renderMarkdownWithLinks of src/unnamed/part_003 on a character list. -/
def renderMarkdownWithLinks (s : List Char) : List RPart :=
  renderFuel s.length s

/-- Reassembly of an output part list back into text, anchors written back
in their original markdown form (the url group contains the scheme). -/
def reassemble : List RPart → List Char
  | [] => []
  | RPart.text s :: ps => s ++ reassemble ps
  | RPart.anchor t u :: ps =>
      '[' :: (t ++ ']' :: '(' :: (u ++ ')' :: reassemble ps))

/-- All suffixes of a character list, the positions at which the regex scan
could start a match. -/
def suffixes : List Char → List (List Char)
  | [] => [[]]
  | c :: cs => (c :: cs) :: suffixes cs

/-- True when no position of the input starts a match of the link pattern,
that is, no substring of the input matches the regex. -/
def noLinkMatch (s : List Char) : Bool :=
  (suffixes s).all fun t => (matchAt t).isNone

/-! Theorems.  Helper lemmas come first, then one theorem per claim with
its witness or counterexample. -/

theorem appendToAi_empty (cid : Option String) (msgs : List Message) :
    appendToAi cid "" msgs = msgs := by
  have hm : ∀ m : Message,
      (if some m.id = cid then { m with content := m.content ++ "" } else m) = m := by
    intro m
    split
    · cases m
      simp [String.append_empty]
    · rfl
  calc msgs.map (fun m =>
        if some m.id = cid then { m with content := m.content ++ "" } else m)
      = msgs.map id := List.map_congr_left fun m _ => hm m
    _ = msgs := msgs.map_id

theorem appendToAi_append (cid : Option String) (a b : String) (msgs : List Message) :
    appendToAi cid b (appendToAi cid a msgs) = appendToAi cid (a ++ b) msgs := by
  unfold appendToAi
  rw [List.map_map]
  refine List.map_congr_left fun m _ => ?_
  by_cases h : some m.id = cid
  · simp [h, String.append_assoc]
  · simp [h]

theorem drainFrom_spec :
    ∀ (q : List TypingQueueItem) (st : ClientState), st.typingQueue = q →
      drainFrom q st
        = { st with
            typingQueue := [],
            messages := appendToAi st.currentAiMessageId (renderAll q) st.messages } := by
  intro q
  induction q with
  | nil =>
      intro st h
      cases st
      simp_all [drainFrom, renderAll, appendToAi_empty]
  | cons it q' ih =>
      intro st h
      have hts : typeStep st
          = { st with
              typingQueue := q',
              messages := appendToAi st.currentAiMessageId (fullContentOf it) st.messages } := by
        unfold typeStep
        rw [h]
      have hdr : drainFrom (it :: q') st = drainFrom q' (typeStep st) := rfl
      rw [hdr, hts, ih _ rfl]
      simp [renderAll, appendToAi_append]

theorem typingQueue_after_event (aid : String) (st : ClientState) (e : SEvent) :
    (handleParsedEvent aid st e).typingQueue
      = st.typingQueue ++ (queueItemOf e).toList := by
  cases e <;> simp [handleParsedEvent, queueItemOf]

theorem typingQueue_after_runEvents (aid : String) (st : ClientState) (es : List SEvent) :
    (runEvents aid st es).typingQueue
      = st.typingQueue ++ es.filterMap queueItemOf := by
  induction es generalizing st with
  | nil => simp [runEvents]
  | cons e es ih =>
      have h1 : runEvents aid st (e :: es) = runEvents aid (handleParsedEvent aid st e) es := rfl
      rw [h1, ih, typingQueue_after_event]
      cases e <;> simp [queueItemOf, List.filterMap_cons]

/-- Claim C1.  During a run, a chapter or references event pushes exactly
one item to the back of the typing queue and the other events push nothing,
so after any sequence of parsed events the queue holds exactly the
chapter/references items in arrival order behind whatever was queued
before; and draining the queue through the typewriter effect consumes the
items front to back, appending the rendered content of every item, in
queue order and nothing else, to the current AI message.  Hence no chapter
or references content is dropped, duplicated, reordered or coalesced
relative to arrival order. -/
theorem typing_queue_fifo_in_order (aid : String) (st : ClientState) (es : List SEvent) :
    (runEvents aid st es).typingQueue = st.typingQueue ++ es.filterMap queueItemOf
      ∧ drainFrom (runEvents aid st es).typingQueue (runEvents aid st es)
        = { runEvents aid st es with
            typingQueue := [],
            messages := appendToAi (runEvents aid st es).currentAiMessageId
              (renderAll (runEvents aid st es).typingQueue)
              (runEvents aid st es).messages } :=
  ⟨typingQueue_after_runEvents aid st es, drainFrom_spec _ _ rfl⟩

/-- Claim C3.  With a session id present, handleSendMessage issues exactly
one POST request to the streaming endpoint, whose JSON body is exactly the
message and the session id. -/
theorem handleSendMessage_single_post (st : ClientState) (msg uid aid sid : String)
    (h : st.sessionId = some sid) :
    (handleSendMessage st msg uid aid).2 = [⟨streamUrl, "POST", ⟨msg, sid⟩⟩] := by
  unfold handleSendMessage
  rw [h]

theorem handleSendMessage_single_post_witness :
    (handleSendMessage ⟨[], false, some "s1", none, [], none, []⟩ "hi" "u1" "a1").2
      = [⟨streamUrl, "POST", ⟨"hi", "s1"⟩⟩] :=
  handleSendMessage_single_post ⟨[], false, some "s1", none, [], none, []⟩ "hi" "u1" "a1" "s1" rfl

/-- Claim C4.  The error case of the switch is handled as a terminal
run-level failure: the content of the current AI message is replaced by
the error text (rendered with the fixed backend-error chinese label), every
other message is untouched, loading is set to false and the progress
display is cleared. -/
theorem error_event_terminal_replacement (aid : String) (st : ClientState) (e : String) :
    (handleParsedEvent aid st (SEvent.error e)).isLoading = false
      ∧ (handleParsedEvent aid st (SEvent.error e)).progress = none
      ∧ (handleParsedEvent aid st (SEvent.error e)).messages
        = st.messages.map (fun m =>
            if m.id = aid then { m with content := backendErrorText e } else m)
      ∧ backendErrorText e = "后端错误: " ++ e :=
  ⟨rfl, rfl, rfl, rfl⟩

/-- Claim C5.  A progress event carries a type that can only be research
or writing together with the current/total counters and a description; the
client records exactly one new activity-log entry for it, sets the single
progress display to it, and both the activity-log text and the
ProgressDisplay rendering show current over total with the description. -/
theorem progress_event_shape_and_log (aid : String) (st : ClientState) (p : ProgressInfo) :
    (handleParsedEvent aid st (SEvent.progress p)).progress = some p
      ∧ (handleParsedEvent aid st (SEvent.progress p)).activityLogs
        = ⟨progressMessage p⟩ :: st.activityLogs
      ∧ progressMessage p = progressDisplayText p
      ∧ progressDisplayText p
        = (if p.ptype = ProgressKind.research then "研究中" else "写作中")
          ++ " (" ++ toString p.current ++ "/" ++ toString p.total ++ "): "
          ++ p.description
      ∧ ∀ k : ProgressKind, k = ProgressKind.research ∨ k = ProgressKind.writing := by
  refine ⟨rfl, rfl, rfl, rfl, fun k => ?_⟩
  cases k
  · exact Or.inl rfl
  · exact Or.inr rfl

/-- Claim C9.  With a session id present, the prologue of handleSendMessage
leaves exactly two messages, the new user message and a fresh empty AI
message, discarding all earlier messages, and clears the progress display,
the activity logs and the typing queue. -/
theorem startRun_resets_conversation (st : ClientState) (msg uid aid sid : String)
    (h : st.sessionId = some sid) :
    (handleSendMessage st msg uid aid).1.messages
        = [⟨uid, Sender.user, msg, none⟩, ⟨aid, Sender.ai, "", some []⟩]
      ∧ (handleSendMessage st msg uid aid).1.progress = none
      ∧ (handleSendMessage st msg uid aid).1.activityLogs = []
      ∧ (handleSendMessage st msg uid aid).1.typingQueue = [] := by
  unfold handleSendMessage
  rw [h]
  exact ⟨rfl, rfl, rfl, rfl⟩

theorem startRun_resets_conversation_witness :
    (handleSendMessage
        ⟨[⟨"m0", Sender.ai, "old answer", none⟩], false, some "sess",
         some ⟨ProgressKind.research, 1, 2, "d"⟩, [⟨"old log"⟩], some "m0",
         [⟨QItemKind.references, "r", none⟩]⟩
        "hello" "u1" "a1").1.messages
      = [⟨"u1", Sender.user, "hello", none⟩, ⟨"a1", Sender.ai, "", some []⟩] :=
  (startRun_resets_conversation
    ⟨[⟨"m0", Sender.ai, "old answer", none⟩], false, some "sess",
     some ⟨ProgressKind.research, 1, 2, "d"⟩, [⟨"old log"⟩], some "m0",
     [⟨QItemKind.references, "r", none⟩]⟩
    "hello" "u1" "a1" "sess" rfl).1

theorem splitBuf_noNewline : ∀ l : List Char, '\n' ∉ l → splitBuf l = ([], l) := by
  intro l
  induction l with
  | nil => intro _; rfl
  | cons c cs ih =>
      intro h
      have hc : ¬ c = '\n' := fun hc => h (hc ▸ List.mem_cons_self c cs)
      have hcs : '\n' ∉ cs := fun hm => h (List.mem_cons_of_mem c hm)
      simp [splitBuf, hc, ih hcs]

theorem splitBuf_rest_noNewline : ∀ l : List Char, '\n' ∉ (splitBuf l).2 := by
  intro l
  induction l with
  | nil => simp [splitBuf]
  | cons c cs ih =>
      by_cases hc : c = '\n'
      · simp [splitBuf, hc, ih]
      · cases hp : (splitBuf cs).1 with
        | nil =>
            simp [splitBuf, hc, hp]
            exact ⟨fun h => hc h.symm, ih⟩
        | cons l ls => simp [splitBuf, hc, hp, ih]

theorem splitBuf_append_nil (a b : List Char) (h : (splitBuf b).1 = []) :
    splitBuf (a ++ b) = ((splitBuf a).1, (splitBuf a).2 ++ (splitBuf b).2) := by
  induction a with
  | nil =>
      simp [splitBuf, h]
      rw [← h]
  | cons c a' ih =>
      by_cases hc : c = '\n'
      · simp [splitBuf, hc, ih]
      · cases hp : (splitBuf a').1 with
        | nil =>
            have hp2 : (splitBuf (a' ++ b)).1 = [] := by rw [ih, hp]
            simp [splitBuf, hc, hp, hp2, ih]
        | cons l ls =>
            have hp2 : (splitBuf (a' ++ b)).1 = l :: ls := by rw [ih, hp]
            simp [splitBuf, hc, hp, hp2, ih]

theorem splitBuf_append_cons (a b l : List Char) (ls : List (List Char))
    (h : (splitBuf b).1 = l :: ls) :
    splitBuf (a ++ b)
      = ((splitBuf a).1 ++ ((splitBuf a).2 ++ l) :: ls, (splitBuf b).2) := by
  induction a with
  | nil =>
      simp [splitBuf, h]
      rw [← h]
  | cons c a' ih =>
      by_cases hc : c = '\n'
      · simp [splitBuf, hc, ih]
      · cases hp : (splitBuf a').1 with
        | nil =>
            have hp2 : (splitBuf (a' ++ b)).1 = ((splitBuf a').2 ++ l) :: ls := by
              rw [ih, hp]; rfl
            simp [splitBuf, hc, hp, hp2, ih]
        | cons l0 ls0 =>
            have hp2 : (splitBuf (a' ++ b)).1 = l0 :: (ls0 ++ ((splitBuf a').2 ++ l) :: ls) := by
              rw [ih, hp]; rfl
            simp [splitBuf, hc, hp, hp2, ih]

theorem splitBuf_decomp (x y : List Char) :
    (splitBuf (x ++ y)).1
        = (splitBuf x).1 ++ (splitBuf ((splitBuf x).2 ++ y)).1
      ∧ (splitBuf (x ++ y)).2 = (splitBuf ((splitBuf x).2 ++ y)).2 := by
  have hrx : splitBuf (splitBuf x).2 = ([], (splitBuf x).2) :=
    splitBuf_noNewline _ (splitBuf_rest_noNewline x)
  cases hy : (splitBuf y).1 with
  | nil =>
      have h1 := splitBuf_append_nil x y hy
      have h2 := splitBuf_append_nil (splitBuf x).2 y hy
      rw [h1, h2, hrx]
      simp
  | cons l ls =>
      have h1 := splitBuf_append_cons x y l ls hy
      have h2 := splitBuf_append_cons (splitBuf x).2 y l ls hy
      rw [h1, h2, hrx]
      simp

theorem processLines_append (a : List (List Char)) :
    ∀ (c : ParseCore) (b : List (List Char)), noBreak c a = true →
      processLines c (a ++ b) = processLines (processLines c a) b := by
  induction a with
  | nil => intro c b _; rfl
  | cons l ls ih =>
      intro c b h
      unfold noBreak at h
      rw [Bool.and_eq_true, Bool.not_eq_true'] at h
      have h1 : processLines c ((l :: ls) ++ b)
          = processLines (processLine c l).1 (ls ++ b) := by
        show (if (processLine c l).2 then (processLine c l).1
              else processLines (processLine c l).1 (ls ++ b)) = _
        rw [h.1]
        simp
      have h2 : processLines c (l :: ls)
          = processLines (processLine c l).1 ls := by
        show (if (processLine c l).2 then (processLine c l).1
              else processLines (processLine c l).1 ls) = _
        rw [h.1]
        simp
      rw [h1, h2, ih _ _ h.2]

theorem noBreak_append (a : List (List Char)) :
    ∀ (c : ParseCore) (b : List (List Char)), noBreak c (a ++ b) = true →
      noBreak c a = true ∧ noBreak (processLines c a) b = true := by
  induction a with
  | nil => intro c b h; exact ⟨rfl, h⟩
  | cons l ls ih =>
      intro c b h
      rw [List.cons_append] at h
      rw [show noBreak c (l :: (ls ++ b))
            = (!(processLine c l).2 && noBreak (processLine c l).1 (ls ++ b)) from rfl,
        Bool.and_eq_true, Bool.not_eq_true'] at h
      have h2 : processLines c (l :: ls)
          = processLines (processLine c l).1 ls := by
        show (if (processLine c l).2 then (processLine c l).1
              else processLines (processLine c l).1 ls) = _
        rw [h.1]
        simp
      have hih := ih (processLine c l).1 b h.2
      refine ⟨?_, by rw [h2]; exact hih.2⟩
      rw [show noBreak c (l :: ls)
            = (!(processLine c l).2 && noBreak (processLine c l).1 ls) from rfl,
        Bool.and_eq_true, Bool.not_eq_true']
      exact ⟨h.1, hih.1⟩

theorem processStream_as_one (cs : List (List Char)) :
    ∀ (buf : List Char) (core : ParseCore), '\n' ∉ buf →
      noBreak core ((splitBuf (buf ++ cs.flatten)).1) = true →
      processStream (buf, core) cs = processChunk (buf, core) cs.flatten := by
  induction cs with
  | nil =>
      intro buf core hbuf _
      show (buf, core) = processChunk (buf, core) []
      unfold processChunk
      rw [List.append_nil, splitBuf_noNewline buf hbuf]
      rfl
  | cons ch cs ih =>
      intro buf core hbuf hnb
      have hflat : (ch :: cs).flatten = ch ++ cs.flatten := rfl
      have hassoc : buf ++ (ch ++ cs.flatten) = (buf ++ ch) ++ cs.flatten := by
        rw [List.append_assoc]
      rw [hflat, hassoc] at hnb
      have hdec := splitBuf_decomp (buf ++ ch) cs.flatten
      rw [hdec.1] at hnb
      have hsplit := noBreak_append _ _ _ hnb
      have hrest : '\n' ∉ (splitBuf (buf ++ ch)).2 := splitBuf_rest_noNewline _
      have h1 : processStream (buf, core) (ch :: cs)
          = processStream (processChunk (buf, core) ch) cs := rfl
      have hchunk : processChunk (buf, core) ch
          = ((splitBuf (buf ++ ch)).2, processLines core (splitBuf (buf ++ ch)).1) := rfl
      rw [h1, hchunk, ih _ _ hrest hsplit.2]
      show ((splitBuf ((splitBuf (buf ++ ch)).2 ++ cs.flatten)).2,
            processLines (processLines core (splitBuf (buf ++ ch)).1)
              (splitBuf ((splitBuf (buf ++ ch)).2 ++ cs.flatten)).1)
          = ((splitBuf (buf ++ (ch :: cs).flatten)).2,
            processLines core (splitBuf (buf ++ (ch :: cs).flatten)).1)
      rw [hflat, hassoc, hdec.1, hdec.2,
        processLines_append _ _ _ hsplit.1]

/-- Claim C8, amended.  The SSE parse loop is chunking-invariant as long as
the [DONE] branch is never taken: for every way of splitting the character
stream into chunks, as long as walking the lines of the whole stream never
reaches the [DONE] break, the final reader state, and in particular the
sequence of dispatched (event name, event data) pairs, is the same as when
the whole stream arrives as one chunk, because an incomplete trailing line
is carried over in the buffer rather than consumed.  The [DONE] break only
abandons the remaining lines of the chunk that contained it, so around a
[DONE] the dispatched events do depend on the chunking (see the
counterexample below). -/
theorem sse_chunking_invariant_no_done (chunks : List (List Char))
    (h : noBreak initParse.2 ((splitBuf chunks.flatten).1) = true) :
    processStream initParse chunks = processChunk initParse chunks.flatten := by
  have hnil : ([] : List Char) ++ chunks.flatten = chunks.flatten := rfl
  exact processStream_as_one chunks [] initParse.2 (by simp) (by rw [hnil]; exact h)

theorem sse_chunking_invariant_no_done_witness :
    processStream initParse ["event: a\nda".data, "ta: x\n\n".data]
      = processChunk initParse (["event: a\nda".data, "ta: x\n\n".data]).flatten :=
  sse_chunking_invariant_no_done ["event: a\nda".data, "ta: x\n\n".data] (by decide)

/-- Claim C8, counterexample to the claim as stated.  The stream carrying
the lines of a [DONE] sentinel followed by the start of another event, cut
after the event-name line, dispatches one (event name, event data) pair
that the same stream delivered as a single chunk does not dispatch: the
break of the [DONE] branch drops the rest of the chunk it arrived in, so
the set of dropped lines depends on where the chunk boundary falls. -/
theorem sse_chunking_dependent_after_done :
    (processStream initParse
        ["event: p\ndata: [DONE]\n\nevent: q\n".data, "data: y\n\n".data]).2.events
      ≠ (processChunk initParse
        ("event: p\ndata: [DONE]\n\nevent: q\n".data ++ "data: y\n\n".data)).2.events := by
  decide

theorem doneLine_flags (c : ParseCore) (h1 : c.eventName ≠ [])
    (h2 : c.eventData = "[DONE]".data) :
    processLine c [] = ({ c with isLoading := false, progress := none }, true) := by
  unfold processLine
  rw [if_neg (by decide), if_neg (by decide), if_pos ⟨rfl, h1⟩, if_pos h2]

/-- Claim C2, amended.  When the blank line closing an event whose
accumulated data is the literal [DONE] is processed, the client sets
loading to false, clears the progress display, and dispatches no further
event from the remaining lines of the current chunk, which are abandoned
by the break; the read loop itself keeps running, so events arriving in
later chunks can still be dispatched (see the counterexample below). -/
theorem done_branch_flags_and_skips_chunk (c : ParseCore) (ls : List (List Char))
    (h1 : c.eventName ≠ []) (h2 : c.eventData = "[DONE]".data) :
    processLines c ([] :: ls) = { c with isLoading := false, progress := none } := by
  show (if (processLine c []).2 then (processLine c []).1
        else processLines (processLine c []).1 ls) = _
  rw [doneLine_flags c h1 h2]
  rfl

theorem done_branch_flags_and_skips_chunk_witness :
    processLines ⟨"a".data, "[DONE]".data, [], true, none⟩
        ([] :: ["data: zzz".data, [], "event: b".data])
      = ⟨"a".data, "[DONE]".data, [], false, none⟩ :=
  done_branch_flags_and_skips_chunk
    ⟨"a".data, "[DONE]".data, [], true, none⟩
    ["data: zzz".data, [], "event: b".data] (by decide) rfl

/-- Claim C2, counterexample to the claim as stated.  After the [DONE]
sentinel is read (the final loading flag is false, so the sentinel branch
did run), a further event arriving in a later chunk of the same stream is
still dispatched — with the stale [DONE] data still prepended to its data,
because the sentinel branch resets neither accumulator — so the client
does not dispatch nothing further from the stream for the run. -/
theorem done_not_stream_terminal :
    (processStream initParse
        ["event: a\ndata: [DONE]\n\n".data, "event: b\ndata: x\n\n".data]).2.isLoading = false
      ∧ (processStream initParse
        ["event: a\ndata: [DONE]\n\n".data, "event: b\ndata: x\n\n".data]).2.events
        = [("b".data, "[DONE]x".data)] := by
  constructor
  · decide
  · decide

/-- Membership of a url among the keys of a registry. -/
def hasUrl (r : CiteRegistry) (u : String) : Prop :=
  ∃ p ∈ r, p.1 = u

theorem hasUrl_iff_any (r : CiteRegistry) (u : String) :
    hasUrl r u ↔ (r.any fun p => p.1 = u) = true := by
  rw [List.any_eq_true]
  unfold hasUrl
  simp

theorem addUrl_of_hasUrl (r : CiteRegistry) (u : String) (h : hasUrl r u) :
    addUrl r u = r := by
  unfold addUrl
  rw [if_pos ((hasUrl_iff_any r u).1 h)]

theorem addUrl_of_not_hasUrl (r : CiteRegistry) (u : String) (h : ¬ hasUrl r u) :
    addUrl r u = r ++ [(u, r.length + 1)] := by
  unfold addUrl
  rw [if_neg fun hc => h ((hasUrl_iff_any r u).2 hc)]

theorem hasUrl_addUrl (r : CiteRegistry) (u v : String) :
    hasUrl (addUrl r v) u ↔ hasUrl r u ∨ u = v := by
  by_cases h : hasUrl r v
  · rw [addUrl_of_hasUrl r v h]
    exact ⟨Or.inl, fun hc => hc.elim id fun he => he ▸ h⟩
  · rw [addUrl_of_not_hasUrl r v h]
    unfold hasUrl
    constructor
    · rintro ⟨p, hp, he⟩
      rcases List.mem_append.1 hp with hl | hr
      · exact Or.inl ⟨p, hl, he⟩
      · simp at hr
        exact Or.inr (he ▸ hr ▸ rfl)
    · rintro (⟨p, hp, he⟩ | he)
      · exact ⟨p, List.mem_append_left _ hp, he⟩
      · exact ⟨(v, r.length + 1), List.mem_append_right _ (List.mem_singleton.2 rfl), he ▸ rfl⟩

theorem citeReg_cons (r : CiteRegistry) (v : String) (w : List String) :
    citeReg r (v :: w) = citeReg (addUrl r v) w := rfl

theorem hasUrl_citeReg (w : List String) :
    ∀ (r : CiteRegistry) (u : String), hasUrl (citeReg r w) u ↔ hasUrl r u ∨ u ∈ w := by
  induction w with
  | nil =>
      intro r u
      simp [citeReg]
  | cons v w' ih =>
      intro r u
      rw [citeReg_cons, ih, hasUrl_addUrl]
      constructor
      · rintro ((h | h) | h)
        · exact Or.inl h
        · exact Or.inr (h ▸ List.mem_cons_self v w')
        · exact Or.inr (List.mem_cons_of_mem v h)
      · rintro (h | h)
        · exact Or.inl (Or.inl h)
        · rcases List.mem_cons.1 h with he | hm
          · exact Or.inl (Or.inr he)
          · exact Or.inr hm

theorem citeReg_of_all_hasUrl :
    ∀ (w : List String) (r : CiteRegistry), (∀ u ∈ w, hasUrl r u) → citeReg r w = r := by
  intro w
  induction w with
  | nil => intro r _; rfl
  | cons v w' ih =>
      intro r h
      rw [citeReg_cons, addUrl_of_hasUrl r v (h v (List.mem_cons_self v w'))]
      exact ih r fun u hu => h u (List.mem_cons_of_mem v hu)

theorem citeReg_extends : ∀ (w : List String) (r : CiteRegistry),
    ∃ t, citeReg r w = r ++ t := by
  intro w
  induction w with
  | nil => intro r; exact ⟨[], (List.append_nil r).symm⟩
  | cons v w' ih =>
      intro r
      by_cases h : hasUrl r v
      · rw [citeReg_cons, addUrl_of_hasUrl r v h]
        exact ih r
      · rw [citeReg_cons, addUrl_of_not_hasUrl r v h]
        rcases ih (r ++ [(v, r.length + 1)]) with ⟨t, ht⟩
        exact ⟨(v, r.length + 1) :: t, by rw [ht, List.append_assoc]; rfl⟩

theorem find?_of_hasUrl (r : CiteRegistry) (u : String) (h : hasUrl r u) :
    (r.find? fun p => p.1 = u).isSome = true := by
  rcases h with ⟨p, hp, he⟩
  exact List.find?_isSome.2 ⟨p, hp, decide_eq_true he⟩

theorem lookupUrl_append_of_hasUrl (r t : CiteRegistry) (u : String) (h : hasUrl r u) :
    lookupUrl (r ++ t) u = lookupUrl r u := by
  unfold lookupUrl
  rw [List.find?_append]
  rcases Option.isSome_iff_exists.1 (find?_of_hasUrl r u h) with ⟨p, hp⟩
  rw [hp]
  rfl

theorem lookupUrl_citeReg_of_hasUrl (w : List String) (r : CiteRegistry) (u : String)
    (h : hasUrl r u) : lookupUrl (citeReg r w) u = lookupUrl r u := by
  rcases citeReg_extends w r with ⟨t, ht⟩
  rw [ht, lookupUrl_append_of_hasUrl r t u h]

theorem not_hasUrl_find?_none (r : CiteRegistry) (u : String) (h : ¬ hasUrl r u) :
    (r.find? fun p => p.1 = u) = none := by
  cases hf : r.find? fun p => p.1 = u with
  | none => rfl
  | some p =>
      exfalso
      apply h
      refine ⟨p, List.mem_of_find?_eq_some hf, ?_⟩
      have := List.find?_some hf
      simpa using this

theorem lookupUrl_fresh (r : CiteRegistry) (u : String) (n : Nat) (h : ¬ hasUrl r u) :
    lookupUrl (r ++ [(u, n)]) u = some n := by
  unfold lookupUrl
  rw [List.find?_append, not_hasUrl_find?_none r u h]
  simp

theorem dropWhile_ne_of_mem :
    ∀ (w : List String) (u : String), u ∈ w →
      ∃ post, w.dropWhile (fun x => x ≠ u) = u :: post := by
  intro w
  induction w with
  | nil => intro u h; exact absurd h (List.not_mem_nil u)
  | cons v w' ih =>
      intro u h
      by_cases he : v = u
      · refine ⟨w', ?_⟩
        subst he
        rw [List.dropWhile_cons, if_neg (by simp)]
      · have hm : u ∈ w' := by
          rcases List.mem_cons.1 h with h1 | h1
          · exact absurd h1.symm he
          · exact h1
        rcases ih u hm with ⟨post, hp⟩
        refine ⟨post, ?_⟩
        rw [List.dropWhile_cons, if_pos (decide_eq_true he), hp]

theorem not_mem_takeWhile_ne (w : List String) (u : String) :
    u ∉ w.takeWhile fun x => x ≠ u := by
  intro h
  have := List.mem_takeWhile_imp h
  simp at this

theorem hasUrl_iff_mem_keys (r : CiteRegistry) (u : String) :
    hasUrl r u ↔ u ∈ r.map fun p => p.1 := by
  unfold hasUrl
  simp

theorem keys_nodup_citeReg : ∀ (w : List String) (r : CiteRegistry),
    (r.map fun p => p.1).Nodup → ((citeReg r w).map fun p => p.1).Nodup := by
  intro w
  induction w with
  | nil => intro r h; exact h
  | cons v w' ih =>
      intro r h
      rw [citeReg_cons]
      by_cases hv : hasUrl r v
      · rw [addUrl_of_hasUrl r v hv]
        exact ih r h
      · rw [addUrl_of_not_hasUrl r v hv]
        refine ih _ ?_
        rw [List.map_append, List.nodup_append]
        refine ⟨h, List.nodup_singleton _, ?_⟩
        intro x hx hx2
        simp at hx2
        subst hx2
        exact hv ((hasUrl_iff_mem_keys r x).2 hx)

theorem lookupUrl_citeReg_first_seen (w : List String) (u : String) (hu : u ∈ w) :
    lookupUrl (citeReg [] w) u
      = some ((citeReg [] (w.takeWhile fun x => x ≠ u)).length + 1) := by
  obtain ⟨post, hpost⟩ := dropWhile_ne_of_mem w u hu
  have hsplit : w = (w.takeWhile fun x => x ≠ u) ++ (u :: post) := by
    have h0 := List.takeWhile_append_dropWhile (p := fun x => x ≠ u) (l := w)
    rw [hpost] at h0
    exact h0.symm
  have hnot : ¬ hasUrl (citeReg [] (w.takeWhile fun x => x ≠ u)) u := by
    rw [hasUrl_citeReg]
    rintro (h | h)
    · rcases h with ⟨p, hp, _⟩
      simp at hp
    · exact not_mem_takeWhile_ne w u h
  have hw : citeReg [] w
      = citeReg ((citeReg [] (w.takeWhile fun x => x ≠ u))
          ++ [(u, (citeReg [] (w.takeWhile fun x => x ≠ u)).length + 1)]) post := by
    conv_lhs => rw [hsplit]
    rw [show citeReg [] ((w.takeWhile fun x => x ≠ u) ++ (u :: post))
          = citeReg (citeReg [] (w.takeWhile fun x => x ≠ u)) (u :: post) from by
        unfold citeReg
        rw [List.foldl_append],
      citeReg_cons,
      addUrl_of_not_hasUrl _ u hnot]
  rw [hw,
    lookupUrl_citeReg_of_hasUrl _ _ _
      ⟨(u, (citeReg [] (w.takeWhile fun x => x ≠ u)).length + 1),
        List.mem_append_right _ (List.mem_singleton.2 rfl), rfl⟩,
    lookupUrl_fresh _ u _ hnot]

/-- Claim C6.  Citation assembly, modelled from the spec: walking the draft
sections in order and assigning each not-yet-assigned url the next integer
starting at 1 is idempotent — running the fold again over the registry the
first run produced changes nothing, so reassembling the same draft sections
in the same order yields identical bibliography numbering — each url gets
exactly one registry entry, and the number assigned to a url is one more
than the number of distinct urls that appear strictly before its first
occurrence in the walk, so numbering is by first appearance starting
at 1. -/
theorem citation_assembly_idempotent_first_seen (dss : List DraftSection) :
    citeReg (citeReg [] (walkUrls dss)) (walkUrls dss) = citeReg [] (walkUrls dss)
      ∧ ((citeReg [] (walkUrls dss)).map fun p => p.1).Nodup
      ∧ ∀ u, u ∈ walkUrls dss →
          lookupUrl (citeReg [] (walkUrls dss)) u
            = some ((citeReg [] ((walkUrls dss).takeWhile fun x => x ≠ u)).length + 1) := by
  refine ⟨?_, ?_, ?_⟩
  · refine citeReg_of_all_hasUrl _ _ fun u hu => ?_
    exact (hasUrl_citeReg (walkUrls dss) [] u).2 (Or.inr hu)
  · exact keys_nodup_citeReg (walkUrls dss) [] (by simp)
  · exact fun u hu => lookupUrl_citeReg_first_seen (walkUrls dss) u hu

theorem citation_assembly_idempotent_first_seen_witness :
    lookupUrl
      (citeReg [] (walkUrls
        [⟨"s1", [TextPiece.marker "http://a", TextPiece.plain "x", TextPiece.marker "http://b"]⟩,
         ⟨"s2", [TextPiece.marker "http://a", TextPiece.marker "http://c"]⟩]))
      "http://b" = some 2 := by
  have h := (citation_assembly_idempotent_first_seen
    [⟨"s1", [TextPiece.marker "http://a", TextPiece.plain "x", TextPiece.marker "http://b"]⟩,
     ⟨"s2", [TextPiece.marker "http://a", TextPiece.marker "http://c"]⟩]).2.2
    "http://b" (by decide)
  rw [h]
  decide

/-- Claim C7.  Scoped retrieval invariant, modelled from the spec: every
finding delivered to the Writing Executor call for a section has a task id
contained in the relevant task ids of that section, because the executor
queries Research Memory filtered to that scope. -/
theorem scoped_retrieval_invariant (mem : ResearchMemory) (s : SectionTask) (f : Finding)
    (h : f ∈ scopedFindings mem s) : f.task_id ∈ s.relevant_task_ids := by
  unfold scopedFindings at h
  have h2 := (List.mem_filter.1 h).2
  simpa using h2

theorem scoped_retrieval_invariant_witness :
    (Finding.mk "t1" "c" []).task_id ∈ (SectionTask.mk "s" "T" ["t1", "t2"]).relevant_task_ids :=
  scoped_retrieval_invariant
    [⟨"t1", "c", []⟩, ⟨"t9", "d", []⟩]
    ⟨"s", "T", ["t1", "t2"]⟩
    ⟨"t1", "c", []⟩
    (by decide)

theorem parseScheme_decomp (s sch r : List Char) (h : parseScheme s = some (sch, r)) :
    s = sch ++ r := by
  unfold parseScheme at h
  split at h
  · split at h
    · simp only [Option.some.injEq, Prod.mk.injEq] at h
      rw [← h.1, ← h.2]
      rfl
    · simp only [Option.some.injEq, Prod.mk.injEq] at h
      rw [← h.1, ← h.2]
      rfl
    · exact absurd h (by simp)
  · exact absurd h (by simp)

theorem splitAtChar_decomp (stop : Char) :
    ∀ (s pre rest : List Char), splitAtChar stop s = some (pre, rest) →
      s = pre ++ stop :: rest := by
  intro s
  induction s with
  | nil => intro pre rest h; exact absurd h (by simp [splitAtChar])
  | cons c cs ih =>
      intro pre rest h
      unfold splitAtChar at h
      by_cases hc : c = stop
      · rw [if_pos hc] at h
        simp only [Option.some.injEq, Prod.mk.injEq] at h
        rw [← h.1, ← h.2, hc]
        rfl
      · rw [if_neg hc] at h
        cases h2 : splitAtChar stop cs with
        | none => rw [h2] at h; exact absurd h (by simp)
        | some pr =>
            obtain ⟨pre0, rest0⟩ := pr
            rw [h2] at h
            simp only [Option.some.injEq, Prod.mk.injEq] at h
            rw [← h.1, ← h.2]
            exact congrArg (c :: ·) (ih pre0 rest0 h2)

theorem splitAtUrlEnd_decomp :
    ∀ (s pre rest : List Char), splitAtUrlEnd s = some (pre, rest) →
      s = pre ++ ')' :: rest := by
  intro s
  induction s with
  | nil => intro pre rest h; exact absurd h (by simp [splitAtUrlEnd])
  | cons c cs ih =>
      intro pre rest h
      unfold splitAtUrlEnd at h
      by_cases hc : c = ')'
      · rw [if_pos hc] at h
        simp only [Option.some.injEq, Prod.mk.injEq] at h
        rw [← h.1, ← h.2, hc]
        rfl
      · rw [if_neg hc] at h
        by_cases hs : isJsSpace c = true
        · rw [if_pos hs] at h
          exact absurd h (by simp)
        · rw [if_neg hs] at h
          cases h2 : splitAtUrlEnd cs with
          | none => rw [h2] at h; exact absurd h (by simp)
          | some pr =>
              obtain ⟨pre0, rest0⟩ := pr
              rw [h2] at h
              simp only [Option.some.injEq, Prod.mk.injEq] at h
              rw [← h.1, ← h.2]
              exact congrArg (c :: ·) (ih pre0 rest0 h2)

theorem matchUrl_decomp (t0 sch s3 t u r : List Char)
    (h : matchUrl t0 sch s3 = some (t, u, r)) :
    t = t0 ∧ ∃ upath, u = sch ++ upath ∧ s3 = upath ++ ')' :: r := by
  unfold matchUrl at h
  cases h3 : splitAtUrlEnd s3 with
  | none => rw [h3] at h; exact absurd h (by simp)
  | some pr =>
      obtain ⟨upath, rest⟩ := pr
      rw [h3] at h
      replace h : (if upath = [] then none else some (t0, sch ++ upath, rest))
          = some (t, u, r) := h
      by_cases hu : upath = []
      · rw [if_pos hu] at h
        exact absurd h (by simp)
      · rw [if_neg hu] at h
        simp only [Option.some.injEq, Prod.mk.injEq] at h
        refine ⟨h.1.symm, upath, h.2.1.symm, ?_⟩
        rw [← h.2.2]
        exact splitAtUrlEnd_decomp s3 upath rest h3

theorem matchParen_decomp (t0 s2 t u r : List Char)
    (h : matchParen t0 s2 = some (t, u, r)) :
    t = t0 ∧ s2 = u ++ ')' :: r := by
  unfold matchParen at h
  cases h2 : parseScheme s2 with
  | none => rw [h2] at h; exact absurd h (by simp)
  | some pr =>
      obtain ⟨sch, s3⟩ := pr
      rw [h2] at h
      replace h : matchUrl t0 sch s3 = some (t, u, r) := h
      obtain ⟨ht, upath, hu, hs3⟩ := matchUrl_decomp t0 sch s3 t u r h
      refine ⟨ht, ?_⟩
      rw [parseScheme_decomp s2 sch s3 h2, hs3, hu, List.append_assoc]

theorem matchAfterText_decomp (t0 r1 t u r : List Char)
    (h : matchAfterText t0 r1 = some (t, u, r)) :
    t = t0 ∧ r1 = '(' :: (u ++ ')' :: r) := by
  unfold matchAfterText at h
  split at h
  · rename_i s2
    obtain ⟨ht, hs2⟩ := matchParen_decomp t0 s2 t u r h
    exact ⟨ht, by rw [← hs2]⟩
  · exact absurd h (by simp)

theorem matchBody_decomp (s1 t u r : List Char) (h : matchBody s1 = some (t, u, r)) :
    s1 = t ++ ']' :: '(' :: (u ++ ')' :: r) := by
  unfold matchBody at h
  cases h1 : splitAtChar ']' s1 with
  | none => rw [h1] at h; exact absurd h (by simp)
  | some pr =>
      obtain ⟨t0, r1⟩ := pr
      rw [h1] at h
      replace h : (if t0 = [] then none else matchAfterText t0 r1) = some (t, u, r) := h
      by_cases ht : t0 = []
      · rw [if_pos ht] at h
        exact absurd h (by simp)
      · rw [if_neg ht] at h
        obtain ⟨hteq, hr1⟩ := matchAfterText_decomp t0 r1 t u r h
        rw [splitAtChar_decomp ']' s1 t0 r1 h1, hr1, hteq]

theorem matchAt_decomp (s t u r : List Char) (h : matchAt s = some (t, u, r)) :
    s = '[' :: (t ++ ']' :: '(' :: (u ++ ')' :: r)) := by
  cases s with
  | nil => exact absurd h (by simp [matchAt])
  | cons c s1 =>
      unfold matchAt at h
      replace h : (if c = '[' then matchBody s1 else none) = some (t, u, r) := h
      by_cases hc : c = '['
      · rw [if_pos hc] at h
        rw [hc]
        exact congrArg ('[' :: ·) (matchBody_decomp s1 t u r h)
      · rw [if_neg hc] at h
        exact absurd h (by simp)

theorem findMatch_decomp :
    ∀ (s p t u r : List Char), findMatch s = some (p, t, u, r) →
      s = p ++ '[' :: (t ++ ']' :: '(' :: (u ++ ')' :: r)) := by
  intro s
  induction s with
  | nil => intro p t u r h; exact absurd h (by simp [findMatch])
  | cons c cs ih =>
      intro p t u r h
      unfold findMatch at h
      split at h
      · rename_i t0 u0 r0 heq
        simp only [Option.some.injEq, Prod.mk.injEq] at h
        obtain ⟨h1, h2, h3, h4⟩ := h
        rw [← h1, ← h2, ← h3, ← h4]
        simpa using matchAt_decomp (c :: cs) t0 u0 r0 heq
      · split at h
        · rename_i p0 t0 u0 r0 heq
          simp only [Option.some.injEq, Prod.mk.injEq] at h
          obtain ⟨h1, h2, h3, h4⟩ := h
          rw [← h1, ← h2, ← h3, ← h4, List.cons_append]
          exact congrArg (c :: ·) (ih p0 t0 u0 r0 heq)
        · exact absurd h (by simp)

theorem reassemble_renderFuel : ∀ (f : Nat) (s : List Char),
    reassemble (renderFuel f s) = s := by
  intro f
  induction f with
  | zero =>
      intro s
      unfold renderFuel
      split
      · rename_i h; rw [h]; rfl
      · show s ++ reassemble [] = s
        simp [reassemble]
  | succ f ih =>
      intro s
      unfold renderFuel
      split
      · split
        · rename_i h; rw [h]; rfl
        · show s ++ reassemble [] = s
          simp [reassemble]
      · rename_i p t u r heq
        have hdec := findMatch_decomp s p t u r heq
        by_cases hp : p = []
        · rw [if_pos hp]
          show '[' :: (t ++ ']' :: '(' :: (u ++ ')' :: reassemble (renderFuel f r))) = s
          rw [ih r, hdec, hp]
          rfl
        · rw [if_neg hp]
          show p ++ '[' :: (t ++ ']' :: '(' :: (u ++ ')' :: reassemble (renderFuel f r))) = s
          rw [ih r, hdec]

theorem noLinkMatch_findMatch_none :
    ∀ s : List Char, noLinkMatch s = true → findMatch s = none := by
  intro s
  induction s with
  | nil => intro _; rfl
  | cons c cs ih =>
      intro h
      unfold noLinkMatch suffixes at h
      rw [List.all_cons, Bool.and_eq_true] at h
      have h1 : matchAt (c :: cs) = none := Option.isNone_iff_eq_none.1 h.1
      have h2 : findMatch cs = none := ih h.2
      unfold findMatch
      rw [h1, h2]

/-- Claim C10.  renderMarkdownWithLinks is total and text-preserving: the
output parts, with every anchor written back in its original markdown
form, concatenate to exactly the input, so the non-link text segments
concatenate in order to the input with each matched link replaced by an
anchor carrying the text and url of that link; and on an input containing no
substring matching the link pattern the result is the single text part
equal to the input, or no part at all for the empty input. -/
theorem renderMarkdownWithLinks_text_preserving (s : List Char) :
    reassemble (renderMarkdownWithLinks s) = s
      ∧ (noLinkMatch s = true →
          renderMarkdownWithLinks s = if s = [] then [] else [RPart.text s]) := by
  constructor
  · exact reassemble_renderFuel s.length s
  · intro h
    cases s with
    | nil => rfl
    | cons c cs =>
        show renderFuel (cs.length + 1) (c :: cs) = _
        unfold renderFuel
        rw [noLinkMatch_findMatch_none (c :: cs) h]

theorem renderMarkdownWithLinks_text_preserving_witness :
    renderMarkdownWithLinks "plain text".data = [RPart.text "plain text".data] := by
  have h := (renderMarkdownWithLinks_text_preserving "plain text".data).2 (by decide)
  rw [h]
  decide

end DeepSearch
